import Mathlib

/-!
Shallow embedding of the `stream` Go library (rhzx3519/stream).

The library is a lazily evaluated pipeline: a `stream` node chain is built by
non-terminal operations, a terminal operation wraps a terminal stage through
every node's `wrap` function and then drives a pull loop over the source
iterator (`impl.go`, `stage.go`, `iterator.go`).

Modelling decisions, each noted again at the definition it concerns:
  - Go interface values (`types.T`) are modelled by a type parameter.
  - Mutable closure state of a stage is modelled by explicit state passing:
    a `stage α σ` is the four lifecycle functions acting on a state `σ`.
    Wrapping an operation around a downstream stage extends the state with the
    operation's own captured variables (buffer, seen set, counter), exactly the
    variables the Go closures capture.
  - The driver loop of `stream.terminal` is modelled with fuel and also
    returns the list of observable events (`Begin`, `HasNext`, `CanFinish`,
    `Next`, `Accept`, `End`) so that call counts and call order are provable.
  - Go `int64` values are modelled as `Int`; the one place where the source
    relies on wrap-around machine arithmetic (`epInt.CompareTo`) is modelled
    with an explicit two's-complement wrap.
  - Side effects of caller-supplied consumers (`ForEach`, terminal consumers)
    are modelled as the ordered list of values the consumer was invoked on.
-/

namespace GoStream

/-- Observable events of one terminal evaluation, emitted by the driver. -/
inductive Ev (γ : Type) where
  | beginE (n : Int)
  | hasNextE (b : Bool)
  | canFinishE (b : Bool)
  | nextE (x : γ)
  | acceptE (x : γ)
  | endE
deriving Repr

/-- Recognizer for the `endE` event. -/
def Ev.isEnd : Ev γ → Bool
  | .endE => true
  | _ => false

/-- Recognizer for the `beginE` event. -/
def Ev.isBegin : Ev γ → Bool
  | .beginE _ => true
  | _ => false

/-- Recognizer for the `nextE` event (one pull from the source). -/
def Ev.isNext : Ev γ → Bool
  | .nextE _ => true
  | _ => false

/-- Recognizer for the `acceptE` event (one push into the composed stage). -/
def Ev.isAccept : Ev γ → Bool
  | .acceptE _ => true
  | _ => false

/-- A stage (`stage.go`): the four lifecycle behaviours `Begin`, `Accept`,
`CanFinish`, `End` of one fused pipeline link, acting on its mutable state `σ`
(the Go implementation keeps that state in closure captures). -/
structure stage (α σ : Type) where
  beginF : Int → σ → σ
  acceptF : α → σ → σ
  canFinishF : σ → Bool
  endF : σ → σ

/-- The iterator contract of `iterator.go`: size hint, `HasNext`, `Next`,
acting on iterator state `ι`. `Next` returns the element and the new state. -/
structure IterOps (ι γ : Type) where
  GetSizeIfKnown : ι → Int
  HasNext : ι → Bool
  Next : ι → γ × ι

/-- The `unkonwnSize` sentinel of `iterator.go` (name kept as in the source). -/
def unkonwnSize : Int := -1

/-- Slice iterator (`sliceIterator` + `base` in `iterator.go`): state is the
cursor `current`; `size` is the length of the backing slice. -/
def sliceOps [Inhabited γ] (elements : List γ) : IterOps Nat γ where
  GetSizeIfKnown := fun _ => (elements.length : Int)
  HasNext := fun current => decide (current < elements.length)
  Next := fun current => (elements.getD current default, current + 1)

/-- Seed iterator (`seedIt` in `iterator.go`): state is `(element, first)`.
The very first pull returns the seed unmodified; afterwards the operator is
applied to the stored element to produce (and store) the next value. -/
def seedOps (f : γ → γ) : IterOps (γ × Bool) γ where
  GetSizeIfKnown := fun _ => unkonwnSize
  HasNext := fun _ => true
  Next := fun st => if st.2 then (st.1, (st.1, false)) else (f st.1, (f st.1, false))

/-- Two's-complement wrap into the `int64` range, used to model Go `int`
arithmetic where the source relies on it (`epInt.CompareTo`). -/
def int64wrap (x : Int) : Int := (x + 2 ^ 63) % 2 ^ 64 - 2 ^ 63

/-- Model of `epInt.CompareTo` (`iterator.go`): `int(m - other)`, a raw
machine subtraction that wraps around on overflow. -/
def epIntCompareTo (m other : Int) : Int := int64wrap (m - other)

/-- State of the range iterator `rangeIt` (`iterator.go`). The Go fields
`from` and `to` are called `fromVal` and `toVal` because those words are
reserved in Lean; `next` is the cursor. -/
structure rangeIt where
  fromVal : Int
  toVal : Int
  step : Int
  next : Int

/-- Model of `rangeIt.HasNext` (`iterator.go`): step-aware comparison of the
cursor against the exclusive bound via `epInt.CompareTo`. -/
def rangeHasNext (r : rangeIt) : Bool :=
  if r.step ≥ 0 then decide (epIntCompareTo r.next r.toVal < 0)
  else decide (epIntCompareTo r.next r.toVal > 0)

/-- The driver loop of `stream.terminal` (`impl.go`):
`for source.HasNext() && !stage.CanFinish() { stage.Accept(source.Next()) }`,
with fuel for termination and an event trace. The returned `Bool` is `true`
iff the loop reached its exit condition within the given fuel. -/
def runStage (ops : IterOps ι γ) (sg : stage γ σ) : Nat → σ → ι → σ × ι × List (Ev γ) × Bool
  | 0, s, i => (s, i, [], false)
  | fuel + 1, s, i =>
    if ops.HasNext i then
      if sg.canFinishF s then
        (s, i, [Ev.hasNextE true, Ev.canFinishE true], true)
      else
        let p := ops.Next i
        let r := runStage ops sg fuel (sg.acceptF p.1 s) p.2
        (r.1, r.2.1, Ev.hasNextE true :: Ev.canFinishE false :: Ev.nextE p.1 :: Ev.acceptE p.1 :: r.2.2.1, r.2.2.2)
    else
      (s, i, [Ev.hasNextE false], true)

/-- The whole of `stream.terminal` (`impl.go`): `Begin` with the source's size
hint, the driver loop, then `End`, with the full event trace. -/
def runTerminal (ops : IterOps ι γ) (sg : stage γ σ) (fuel : Nat) (s0 : σ) (i : ι) :
    σ × ι × List (Ev γ) × Bool :=
  let hint := ops.GetSizeIfKnown i
  let s1 := sg.beginF hint s0
  let r := runStage ops sg fuel s1 i
  (sg.endF r.1, r.2.1, Ev.beginE hint :: r.2.2.1 ++ [Ev.endE], r.2.2.2)

/-- A stage packaged with its state type, current/initial state. Needed
because wrapping an operation around a downstream stage extends the state
type, so a pipeline node's wrap function changes the state type. -/
structure PackedStage (α : Type) : Type 1 where
  σ : Type
  ops : stage α σ
  init : σ

/-- Wrap of `stream.Filter` (`impl.go`): `Begin` downgrades the hint to
`unkonwnSize`; `Accept` forwards only if the predicate holds; `CanFinish` and
`End` are the `chainedStage` pass-through defaults. -/
def filterWrap (test : α → Bool) (down : PackedStage α) : PackedStage α where
  σ := down.σ
  ops := {
    beginF := fun _ s => down.ops.beginF unkonwnSize s
    acceptF := fun t s => if test t then down.ops.acceptF t s else s
    canFinishF := down.ops.canFinishF
    endF := down.ops.endF }
  init := down.init

/-- Wrap of `stream.Map` (`impl.go`): only `Accept` is overridden, applying
the function before forwarding. -/
def mapWrap (apply : α → β) (down : PackedStage β) : PackedStage α where
  σ := down.σ
  ops := {
    beginF := down.ops.beginF
    acceptF := fun t s => down.ops.acceptF (apply t) s
    canFinishF := down.ops.canFinishF
    endF := down.ops.endF }
  init := down.init

/-- Wrap of `stream.FlatMap` (`impl.go`). The nested `ss.ForEach(down.Accept)`
pushes every element of the sub-stream into the downstream stage in order; the
sub-stream is modelled by the list of elements it delivers. -/
def flatMapWrap (flatten : α → List β) (down : PackedStage β) : PackedStage α where
  σ := down.σ
  ops := {
    beginF := fun _ s => down.ops.beginF unkonwnSize s
    acceptF := fun t s => (flatten t).foldl (fun s x => down.ops.acceptF x s) s
    canFinishF := down.ops.canFinishF
    endF := down.ops.endF }
  init := down.init

/-- Wrap of `stream.Peek` (`impl.go`): invokes the consumer then forwards the
element unmodified. The consumer's side effect leaves no trace in pipeline
state, so `Accept` is state-wise a plain forward. -/
def peekWrap (consumer : α → Unit) (down : PackedStage α) : PackedStage α where
  σ := down.σ
  ops := {
    beginF := down.ops.beginF
    acceptF := fun t s => down.ops.acceptF t s
    canFinishF := down.ops.canFinishF
    endF := down.ops.endF }
  init := down.init

/-- Wrap of `stream.Distinct` (`impl.go`): own state is the set of seen hash
codes (a Go `map[int]bool`, modelled as a list of hashes). `Begin` creates the
set fresh and passes `unkonwnSize` downstream; `Accept` forwards only a
first-seen hash; `End` releases the set (`set = nil`) and calls downstream
`End`. -/
def distinctWrap (distincter : α → Int) (down : PackedStage α) : PackedStage α where
  σ := List Int × down.σ
  ops := {
    beginF := fun _ st => ([], down.ops.beginF unkonwnSize st.2)
    acceptF := fun t st =>
      if st.1.contains (distincter t) then st
      else (distincter t :: st.1, down.ops.acceptF t st.2)
    canFinishF := fun st => down.ops.canFinishF st.2
    endF := fun st => ([], down.ops.endF st.2) }
  init := ([], down.init)

/-- Model of `sort.Sort` on a `Sortable{List, Cmp}` (`iterator.go`): Go's
unstable comparison sort is modelled by insertion sort on the relation
`cmp a b ≤ 0`; both produce a permutation of the input that is sorted with
respect to the three-way comparator, which is all `sort.Sort` guarantees. -/
def sortSort (cmp : α → α → Int) (l : List α) : List α :=
  List.insertionSort (fun a b => cmp a b ≤ 0) l

/-- The replay loop inside `Sorted`'s `end` closure (`impl.go`):
`for i.HasNext() && !down.CanFinish() { down.Accept(i.Next()) }` over the
sorted buffer. -/
def replay (sg : stage α σ) : List α → σ → σ
  | [], s => s
  | x :: xs, s => if sg.canFinishF s then s else replay sg xs (sg.acceptF x s)

/-- Wrap of `stream.Sorted` (`impl.go`): own state is the buffer list.
`Begin` resets the buffer and forwards the hint unchanged; `Accept` only
appends (nothing is forwarded); `End` sorts the buffer, re-issues `Begin`
downstream with the buffered count, replays the sorted buffer respecting
downstream `CanFinish`, releases the buffer and calls downstream `End`. -/
def sortedWrap (comparator : α → α → Int) (down : PackedStage α) : PackedStage α where
  σ := List α × down.σ
  ops := {
    beginF := fun size st => ([], down.ops.beginF size st.2)
    acceptF := fun t st => (st.1 ++ [t], st.2)
    canFinishF := fun st => down.ops.canFinishF st.2
    endF := fun st =>
      let sorted := sortSort comparator st.1
      ([], down.ops.endF (replay down.ops sorted (down.ops.beginF (sorted.length : Int) st.2))) }
  init := ([], down.init)

/-- Wrap of `stream.Limit` (`impl.go`): own state is the running count.
`Begin` caps a known positive hint at `maxSize`; `Accept` forwards while
`count < maxSize` and always increments; `CanFinish` is overridden to
`count >= maxSize` (it does not consult downstream). -/
def limitWrap (maxSize : Int) (down : PackedStage α) : PackedStage α where
  σ := Int × down.σ
  ops := {
    beginF := fun size st =>
      (st.1, down.ops.beginF (if size > 0 ∧ size > maxSize then maxSize else size) st.2)
    acceptF := fun t st => (st.1 + 1, if st.1 < maxSize then down.ops.acceptF t st.2 else st.2)
    canFinishF := fun st => decide (st.1 ≥ maxSize)
    endF := fun st => (st.1, down.ops.endF st.2) }
  init := (0, down.init)

/-- Wrap of `stream.Skip` (`impl.go`): own state is the running count.
`Begin` reduces a known positive hint by `n` floored at zero; `Accept`
forwards only once `count >= n` and always increments. -/
def skipWrap (n : Int) (down : PackedStage α) : PackedStage α where
  σ := Int × down.σ
  ops := {
    beginF := fun size st =>
      (st.1, down.ops.beginF (if size > 0 then (if size - n < 0 then 0 else size - n) else size) st.2)
    acceptF := fun t st => (st.1 + 1, if st.1 ≥ n then down.ops.acceptF t st.2 else st.2)
    canFinishF := fun st => down.ops.canFinishF st.2
    endF := fun st => (st.1, down.ops.endF st.2) }
  init := (0, down.init)

/-- An iterator packaged with its state type and current state. -/
structure Iter (γ : Type) : Type 1 where
  ι : Type
  ops : IterOps ι γ
  st : ι

/-- The `stream` node (`impl.go`): the shared source and the composed wrap
function. The Go `prev` chain is modelled by composing wrap functions, which
is exactly what `stream.wrapStage` computes from the chain. -/
structure Str (γ α : Type) : Type 1 where
  source : Iter γ
  wrapStage : PackedStage α → PackedStage γ

/-- Constructor `newHead` (`impl.go`): head node, nothing to wrap. -/
def newHead (source : Iter γ) : Str γ γ where
  source := source
  wrapStage := id

/-- Constructor `newNode` (`impl.go`): shares the previous node's source and
prepends this node's wrap to the composed wrap chain (as `stream.wrapStage`
applies wraps from the terminal-most node back to the head). -/
def newNode (prev : Str γ α) (wrap : PackedStage β → PackedStage α) : Str γ β where
  source := prev.source
  wrapStage := fun ts => prev.wrapStage (wrap ts)

/-- Go `it(elements...)`: slice-backed head source (`iterator.go`). -/
def it [Inhabited γ] (elements : List γ) : Iter γ where
  ι := Nat
  ops := sliceOps elements
  st := 0

/-- Go `withSeed(seed, f)`: infinite seed source (`iterator.go`). -/
def withSeed (seed : γ) (f : γ → γ) : Iter γ where
  ι := γ × Bool
  ops := seedOps f
  st := (seed, true)

/-- Method `stream.Filter` (`impl.go`). -/
def Str.Filter (s : Str γ α) (test : α → Bool) : Str γ α :=
  newNode s (filterWrap test)

/-- Method `stream.Map` (`impl.go`). -/
def Str.Map (s : Str γ α) (apply : α → β) : Str γ β :=
  newNode s (mapWrap apply)

/-- Method `stream.FlatMap` (`impl.go`), with the sub-stream modelled by the
list of elements it delivers. -/
def Str.FlatMap (s : Str γ α) (flatten : α → List β) : Str γ β :=
  newNode s (flatMapWrap flatten)

/-- Method `stream.Peek` (`impl.go`). -/
def Str.Peek (s : Str γ α) (consumer : α → Unit) : Str γ α :=
  newNode s (peekWrap consumer)

/-- Method `stream.Distinct` (`impl.go`). -/
def Str.Distinct (s : Str γ α) (distincter : α → Int) : Str γ α :=
  newNode s (distinctWrap distincter)

/-- Method `stream.Sorted` (`impl.go`). -/
def Str.Sorted (s : Str γ α) (comparator : α → α → Int) : Str γ α :=
  newNode s (sortedWrap comparator)

/-- Method `stream.Limit` (`impl.go`). -/
def Str.Limit (s : Str γ α) (maxSize : Int) : Str γ α :=
  newNode s (limitWrap maxSize)

/-- Method `stream.Skip` (`impl.go`). -/
def Str.Skip (s : Str γ α) (n : Int) : Str γ α :=
  newNode s (skipWrap n)

/-- Method `stream.terminal` (`impl.go`): wrap the terminal stage through the
whole chain, then run the driver on the shared source. -/
def Str.terminal (s : Str γ α) (ts : PackedStage α) (fuel : Nat) :
    (s.wrapStage ts).σ × s.source.ι × List (Ev γ) × Bool :=
  runTerminal s.source.ops (s.wrapStage ts).ops fuel (s.wrapStage ts).init s.source.st

/-- Terminal stage of `stream.ReduceBy` (`impl.go`): `begin` builds the
initial accumulator from the size hint, `accept` folds, `canFinish` and `end`
are the `terminalStage` defaults. `r0` models the accumulator's Go zero value
before `Begin` runs. -/
def reduceByStage (ρ : Type) (buildInitValue : Int → ρ) (accumulator : ρ → α → ρ) (r0 : ρ) :
    PackedStage α where
  σ := ρ
  ops := {
    beginF := fun n _ => buildInitValue n
    acceptF := fun t r => accumulator r t
    canFinishF := fun _ => false
    endF := id }
  init := r0

/-- Terminal stage of `stream.ToSlice` (`impl.go`): `ReduceBy` with an empty
slice as initial value and append as accumulator. -/
def toSliceStage (α : Type) : PackedStage α :=
  reduceByStage (List α) (fun _ => []) (fun l t => l ++ [t]) []

/-- Terminal stage of `stream.ReduceWith` (`impl.go`): the accumulator starts
from the given initial value; `begin` is the `terminalStage` no-op default. -/
def reduceWithStage (ρ : Type) (initValue : ρ) (accumulator : ρ → α → ρ) : PackedStage α where
  σ := ρ
  ops := {
    beginF := fun _ r => r
    acceptF := fun t r => accumulator r t
    canFinishF := fun _ => false
    endF := id }
  init := initValue

/-- Terminal stage of `stream.Count` (`impl.go`): `ReduceWith` from `0`,
adding one per element. -/
def countStage (α : Type) : PackedStage α :=
  reduceWithStage Int 0 (fun count _ => count + 1)

/-- Terminal stage of `stream.ForEach` (`impl.go`): the consumer's
invocations are modelled as the ordered list of elements it received. -/
def forEachStage (α : Type) : PackedStage α where
  σ := List α
  ops := {
    beginF := fun _ s => s
    acceptF := fun t l => l ++ [t]
    canFinishF := fun _ => false
    endF := id }
  init := []

/-- Terminal stage of `stream.Reduce` (`impl.go`): state is
`(result, hasElement, combiner invocations)`. The first element becomes the
seed without invoking the combiner; later elements fold left-to-right. The
invocation counter instruments the only code path that calls the combiner.
`result = none` models the Go `nil` result that `optional.OfNullable` turns
into an absent optional. -/
def reduceStage (accumulator : α → α → α) : PackedStage α where
  σ := Option α × Bool × Nat
  ops := {
    beginF := fun _ st => st
    acceptF := fun t st =>
      match st with
      | (_, false, n) => (some t, true, n)
      | (res, true, n) => (some (accumulator (res.getD t) t), true, n + 1)
    canFinishF := fun _ => false
    endF := id }
  init := (none, false, 0)

/-- Terminal stage of `stream.AllMatch` (`impl.go`): result starts `true`,
a failing element sets it `false`, `canFinish` is `!result`. State carries an
instrumentation counter of predicate invocations. -/
def allMatchStage (test : α → Bool) : PackedStage α where
  σ := Bool × Nat
  ops := {
    beginF := fun _ st => st
    acceptF := fun t st => (if test t then st.1 else false, st.2 + 1)
    canFinishF := fun st => !st.1
    endF := id }
  init := (true, 0)

/-- Terminal stage of `stream.NoneMatch` (`impl.go`): result starts `true`,
a matching element sets it `false`, `canFinish` is `!result`. State carries an
instrumentation counter of predicate invocations. -/
def noneMatchStage (test : α → Bool) : PackedStage α where
  σ := Bool × Nat
  ops := {
    beginF := fun _ st => st
    acceptF := fun t st => (if test t then false else st.1, st.2 + 1)
    canFinishF := fun st => !st.1
    endF := id }
  init := (true, 0)

/-- Terminal stage of `stream.AnyMatch` (`impl.go`): result starts `false`,
a matching element sets it `true`, `canFinish` is `result`. State carries an
instrumentation counter of predicate invocations. -/
def anyMatchStage (test : α → Bool) : PackedStage α where
  σ := Bool × Nat
  ops := {
    beginF := fun _ st => st
    acceptF := fun t st => (if test t then true else st.1, st.2 + 1)
    canFinishF := fun st => st.1
    endF := id }
  init := (false, 0)

/-- Folding a list of elements through a stage's `Accept`, the state effect of
an uninterrupted run of the driver loop. -/
def foldAccept (sg : stage γ σ) (s : σ) (l : List γ) : σ :=
  l.foldl (fun s x => sg.acceptF x s) s

/-- The event trace of a driver loop that pulls exactly the given elements and
then finds the source exhausted. -/
def pullEvents : List γ → List (Ev γ)
  | [] => [Ev.hasNextE false]
  | x :: xs => Ev.hasNextE true :: Ev.canFinishE false :: Ev.nextE x :: Ev.acceptE x :: pullEvents xs

/-- The shape of a completed driver-loop trace: starting from stage state `s`
and iterator state `i`, the loop either stops because the source is exhausted,
or stops because the stage can finish, or checks `HasNext` then `CanFinish`
(in that order), pulls one element with `Next`, pushes it with `Accept` and
continues; so `CanFinish` is checked before every `Accept`. -/
inductive LoopShape (ops : IterOps ι γ) (sg : stage γ σ) : σ → ι → List (Ev γ) → Prop where
  | exhausted (s : σ) (i : ι) : ops.HasNext i = false →
      LoopShape ops sg s i [Ev.hasNextE false]
  | earlyFinish (s : σ) (i : ι) : ops.HasNext i = true → sg.canFinishF s = true →
      LoopShape ops sg s i [Ev.hasNextE true, Ev.canFinishE true]
  | step (s : σ) (i : ι) (x : γ) (i' : ι) (tr : List (Ev γ)) :
      ops.HasNext i = true → sg.canFinishF s = false → ops.Next i = (x, i') →
      LoopShape ops sg (sg.acceptF x s) i' tr →
      LoopShape ops sg s i
        (Ev.hasNextE true :: Ev.canFinishE false :: Ev.nextE x :: Ev.acceptE x :: tr)

/-- First-occurrence-by-hash deduplication: keeps an element iff its hash code
is not in the accumulated seen set; the recursive characterization of what the
`Distinct` stage forwards. -/
def dedupByHash (distincter : α → Int) : List α → List Int → List α
  | [], _ => []
  | x :: xs, seen =>
    if seen.contains (distincter x) then dedupByHash distincter xs seen
    else x :: dedupByHash distincter xs (distincter x :: seen)

/-- The elements delivered by `n` successive pulls of the seed iterator
starting from state `(e, first)`. -/
def seedPulls (f : γ → γ) : γ × Bool → Nat → List γ
  | _, 0 => []
  | (e, true), n + 1 => e :: seedPulls f (e, false) n
  | (e, false), n + 1 => f e :: seedPulls f (f e, false) n

/-- Model of `types.IntComparator` (the `types` package): three-way comparison
of two ints, positive/negative/zero. -/
def IntComparator (left right : Int) : Int :=
  if left > right then 1 else if left < right then -1 else 0

/-- Driver loop over a slice source with a stage that never finishes early:
starting at cursor `c` with enough fuel, it accepts exactly the remaining
elements in order, ends at the exhausted cursor, and emits the corresponding
pull trace. -/
theorem runStage_sliceOps [Inhabited γ] {σ : Type} (elements : List γ) (sg : stage γ σ)
    (hcf : ∀ s, sg.canFinishF s = false) (fuel c : Nat) (s : σ)
    (h2 : elements.length < c + fuel) (h3 : c ≤ elements.length) :
    runStage (sliceOps elements) sg fuel s c =
      (foldAccept sg s (elements.drop c), elements.length, pullEvents (elements.drop c), true) := by
  induction fuel generalizing c s with
  | zero => omega
  | succ fuel ih =>
    rcases Nat.lt_or_ge c elements.length with hc | hc
    · have hdrop := List.drop_eq_getElem_cons hc
      have hnext : (sliceOps (γ := γ) elements).HasNext c = true := by
        simp [sliceOps, hc]
      have hpull : (sliceOps (γ := γ) elements).Next c = (elements[c], c + 1) := by
        simp [sliceOps, List.getElem?_eq_getElem hc]
      rw [runStage]
      simp only [hnext, hcf, hpull, if_true, Bool.false_eq_true, if_false]
      rw [ih (c + 1) _ (by omega) (by omega)]
      rw [hdrop]
      rfl
    · have hc' : c = elements.length := le_antisymm h3 hc
      subst hc'
      have hdrop : elements.drop elements.length = [] := List.drop_length elements
      have hnext : (sliceOps (γ := γ) elements).HasNext elements.length = false := by
        simp [sliceOps]
      rw [runStage]
      simp [hnext, hdrop, foldAccept, pullEvents]

/-- Whole terminal evaluation over a slice source with a never-finishing
stage: `Begin` with the slice length, accept every element, `End`. -/
theorem runTerminal_sliceOps [Inhabited γ] {σ : Type} (elements : List γ) (sg : stage γ σ)
    (hcf : ∀ s, sg.canFinishF s = false) (fuel : Nat) (s0 : σ) (h : elements.length < fuel) :
    runTerminal (sliceOps elements) sg fuel s0 0 =
      (sg.endF (foldAccept sg (sg.beginF (elements.length : Int) s0) elements),
        elements.length,
        Ev.beginE (elements.length : Int) :: pullEvents elements ++ [Ev.endE], true) := by
  simp only [runTerminal]
  rw [runStage_sliceOps elements sg hcf fuel 0 _ (by omega) (by omega)]
  simp [sliceOps]

/-- A driver loop started on a source with no next element exits at once:
state untouched, no `Next`, no `Accept`. -/
theorem runStage_not_hasNext (ops : IterOps ι γ) (sg : stage γ σ) (fuel : Nat) (s : σ) (i : ι)
    (h : ops.HasNext i = false) (hf : 1 ≤ fuel) :
    runStage ops sg fuel s i = (s, i, [Ev.hasNextE false], true) := by
  cases fuel with
  | zero => omega
  | succ fuel => rw [runStage]; simp [h]

/-- Terminal evaluation on an exhausted source: `Begin`, one failed `HasNext`
probe, `End`; zero `Accept` events. -/
theorem runTerminal_not_hasNext (ops : IterOps ι γ) (sg : stage γ σ) (fuel : Nat) (s0 : σ) (i : ι)
    (h : ops.HasNext i = false) (hf : 1 ≤ fuel) :
    runTerminal ops sg fuel s0 i =
      (sg.endF (sg.beginF (ops.GetSizeIfKnown i) s0), i,
        [Ev.beginE (ops.GetSizeIfKnown i), Ev.hasNextE false, Ev.endE], true) := by
  simp only [runTerminal]
  rw [runStage_not_hasNext ops sg fuel _ i h hf]
  rfl

/-- Driver loop over a slice source with a stage whose `Accept` leaves the
state unchanged and which cannot finish at that state: the state survives
untouched and the loop drains the source. -/
theorem runStage_sliceOps_inert [Inhabited γ] {σ : Type} (elements : List γ) (sg : stage γ σ)
    (hacc : ∀ t s, sg.acceptF t s = s) (s : σ) (hcf : sg.canFinishF s = false) (fuel c : Nat)
    (h2 : elements.length < c + fuel) (h3 : c ≤ elements.length) :
    runStage (sliceOps elements) sg fuel s c =
      (s, elements.length, pullEvents (elements.drop c), true) := by
  induction fuel generalizing c with
  | zero => omega
  | succ fuel ih =>
    rcases Nat.lt_or_ge c elements.length with hc | hc
    · have hdrop := List.drop_eq_getElem_cons hc
      have hnext : (sliceOps (γ := γ) elements).HasNext c = true := by
        simp [sliceOps, hc]
      have hpull : (sliceOps (γ := γ) elements).Next c = (elements[c], c + 1) := by
        simp [sliceOps, List.getElem?_eq_getElem hc]
      rw [runStage]
      simp only [hnext, hcf, hpull, if_true, Bool.false_eq_true, if_false]
      rw [hacc]
      rw [ih (c + 1) (by omega) (by omega)]
      rw [hdrop]
      rfl
    · have hc' : c = elements.length := le_antisymm h3 hc
      subst hc'
      have hdrop : elements.drop elements.length = [] := List.drop_length elements
      have hnext : (sliceOps (γ := γ) elements).HasNext elements.length = false := by
        simp [sliceOps]
      rw [runStage]
      simp [hnext, hdrop, pullEvents]

/-- A driver loop that reports completion produced a trace of the loop shape:
`HasNext` then `CanFinish` checks before every `Next`/`Accept` pair. -/
theorem runStage_loopShape (ops : IterOps ι γ) (sg : stage γ σ) (fuel : Nat) :
    ∀ (s : σ) (i : ι), (runStage ops sg fuel s i).2.2.2 = true →
      LoopShape ops sg s i (runStage ops sg fuel s i).2.2.1 := by
  induction fuel with
  | zero => intro s i h; simp [runStage] at h
  | succ fuel ih =>
    intro s i h
    rw [runStage] at h ⊢
    cases hn : ops.HasNext i with
    | false =>
      simp only [hn, Bool.false_eq_true, if_false]
      exact LoopShape.exhausted s i hn
    | true =>
      cases hcf : sg.canFinishF s with
      | true =>
        simp only [hn, hcf, if_true]
        exact LoopShape.earlyFinish s i hn hcf
      | false =>
        simp only [hn, hcf, Bool.false_eq_true, if_true, if_false] at h ⊢
        exact LoopShape.step s i (ops.Next i).1 (ops.Next i).2 _ hn hcf rfl (ih _ _ h)

/-- A loop-shaped trace contains no `End` and no `Begin` events. -/
theorem LoopShape_counts {ops : IterOps ι γ} {sg : stage γ σ} {s : σ} {i : ι} {tr : List (Ev γ)}
    (h : LoopShape ops sg s i tr) :
    tr.countP (fun e => Ev.isEnd e) = 0 ∧ tr.countP (fun e => Ev.isBegin e) = 0 := by
  induction h with
  | exhausted s i h => simp [List.countP_cons, List.countP_nil, Ev.isEnd, Ev.isBegin]
  | earlyFinish s i h1 h2 => simp [List.countP_cons, List.countP_nil, Ev.isEnd, Ev.isBegin]
  | step s i x i' tr h1 h2 h3 h4 ih =>
    simpa [List.countP_cons, Ev.isEnd, Ev.isBegin] using ih

/-- Elements pulled from a seed iterator whose `first` flag is cleared are
successive applications of the operator starting from `f e`. -/
theorem seedPulls_false (f : γ → γ) (r : Nat) :
    ∀ e : γ, seedPulls f (e, false) r = List.iterate f (f e) r := by
  induction r with
  | zero => intro e; rfl
  | succ r ih =>
    intro e
    show f e :: seedPulls f (f e, false) r = f e :: List.iterate f (f (f e)) r
    rw [ih (f e)]

/-- Elements pulled from a fresh seed iterator are the seed followed by its
iterated transforms: `[e, f e, f (f e), ...]`. -/
theorem seedPulls_true (f : γ → γ) (r : Nat) (e : γ) :
    seedPulls f (e, true) r = List.iterate f e r := by
  cases r with
  | zero => rfl
  | succ r =>
    show e :: seedPulls f (e, false) r = e :: List.iterate f (f e) r
    rw [seedPulls_false f r e]

/-- Driver loop over the seed source through `Limit k` into `ToSlice`, with
`r` elements still allowed (`count + r = k`): the loop accepts exactly the
next `r` seed pulls, pulls the source exactly `r` times, and completes. -/
theorem runStage_seed_limit (f : γ → γ) (k : Nat) (r : Nat) :
    ∀ (c : Int) (lst : List γ) (st : γ × Bool), c + (r : Int) = (k : Int) →
      (runStage (seedOps f) (limitWrap (k : Int) (toSliceStage γ)).ops (r + 1) (c, lst) st).1
          = ((k : Int), lst ++ seedPulls f st r)
        ∧ ((runStage (seedOps f) (limitWrap (k : Int) (toSliceStage γ)).ops (r + 1) (c, lst) st).2.2.1).countP
            (fun e => Ev.isNext e) = r
        ∧ (runStage (seedOps f) (limitWrap (k : Int) (toSliceStage γ)).ops (r + 1) (c, lst) st).2.2.2
            = true := by
  induction r with
  | zero =>
    intro c lst st h
    have hc : c = (k : Int) := by omega
    subst hc
    have hfin : (limitWrap ((k : Nat) : Int) (toSliceStage γ)).ops.canFinishF ((k : Int), lst) = true :=
      decide_eq_true (le_refl ((k : Nat) : Int))
    rw [runStage]
    have hnext : (seedOps f).HasNext st = true := rfl
    rw [hnext, hfin]
    simp [seedPulls, List.countP_cons, List.countP_nil, Ev.isNext]
  | succ r ih =>
    intro c lst st h
    have hclt : c < (k : Int) := by omega
    have hfin : (limitWrap (k : Int) (toSliceStage γ)).ops.canFinishF (c, lst) = false :=
      decide_eq_false (by omega)
    have hacc : ∀ x : γ, (limitWrap (k : Int) (toSliceStage γ)).ops.acceptF x (c, lst)
        = (c + 1, lst ++ [x]) := by
      intro x
      show (c + 1, if c < (k : Int) then lst ++ [x] else lst) = (c + 1, lst ++ [x])
      rw [if_pos hclt]
    rw [runStage]
    have hnext : (seedOps f).HasNext st = true := rfl
    rw [hnext, hfin]
    simp only [eq_self_iff_true, Bool.false_eq_true, if_true, if_false]
    obtain ⟨e, fst⟩ := st
    cases fst with
    | true =>
      have hp : (seedOps f).Next (e, true) = (e, (e, false)) := rfl
      simp only [hp, hacc]
      have h' := ih (c + 1) (lst ++ [e]) (e, false) (by omega)
      refine ⟨?_, ?_, h'.2.2⟩
      · rw [h'.1]
        simp [seedPulls]
      · simpa [List.countP_cons, Ev.isNext] using h'.2.1
    | false =>
      have hp : (seedOps f).Next (e, false) = (f e, (f e, false)) := rfl
      simp only [hp, hacc]
      have h' := ih (c + 1) (lst ++ [f e]) (f e, false) (by omega)
      refine ⟨?_, ?_, h'.2.2⟩
      · rw [h'.1]
        simp [seedPulls]
      · simpa [List.countP_cons, Ev.isNext] using h'.2.1


/-- Accepting a cons is accepting the head then folding the tail. -/
theorem foldAccept_cons (sg : stage γ σ) (s : σ) (x : γ) (xs : List γ) :
    foldAccept sg s (x :: xs) = foldAccept sg (sg.acceptF x s) xs := rfl

/-- Folding elements into `Filter` over `Map` over `ToSlice` appends the
mapped image of the elements passing the predicate, in order. -/
theorem foldAccept_filter_map (p : α → Bool) (f : α → β) :
    ∀ (l : List α) (acc : List β),
      foldAccept (filterWrap p (mapWrap f (toSliceStage β))).ops acc l
        = acc ++ (l.filter p).map f := by
  intro l
  induction l with
  | nil => intro acc; simp [foldAccept]
  | cons x xs ih =>
    intro acc
    rw [foldAccept_cons]
    by_cases hx : p x
    · have ha : (filterWrap p (mapWrap f (toSliceStage β))).ops.acceptF x acc = acc ++ [f x] := by
        show (if p x then acc ++ [f x] else acc) = acc ++ [f x]
        rw [if_pos hx]
      rw [ha, ih]
      simp [List.filter_cons, hx]
    · have ha : (filterWrap p (mapWrap f (toSliceStage β))).ops.acceptF x acc = acc := by
        show (if p x then acc ++ [f x] else acc) = acc
        rw [if_neg hx]
      rw [ha, ih]
      simp [List.filter_cons, hx]

/-- Folding elements into `Distinct` over `ToSlice` appends exactly the
first-occurrence-by-hash subsequence. -/
theorem foldAccept_distinct (h : α → Int) :
    ∀ (l : List α) (seen : List Int) (acc : List α),
      (foldAccept (distinctWrap h (toSliceStage α)).ops (seen, acc) l).2
        = acc ++ dedupByHash h l seen := by
  intro l
  induction l with
  | nil => intro seen acc; simp [foldAccept, dedupByHash]
  | cons x xs ih =>
    intro seen acc
    rw [foldAccept_cons]
    by_cases hx : seen.contains (h x) = true
    · have ha : (distinctWrap h (toSliceStage α)).ops.acceptF x (seen, acc) = (seen, acc) := by
        show (if seen.contains (h x) then (seen, acc) else (h x :: seen, acc ++ [x])) = (seen, acc)
        rw [if_pos hx]
      rw [ha, ih]
      rw [dedupByHash, if_pos hx]
    · have ha : (distinctWrap h (toSliceStage α)).ops.acceptF x (seen, acc)
          = (h x :: seen, acc ++ [x]) := by
        show (if seen.contains (h x) then (seen, acc) else (h x :: seen, acc ++ [x]))
            = (h x :: seen, acc ++ [x])
        rw [if_neg hx]
      rw [ha, ih]
      rw [dedupByHash, if_neg hx]
      simp

/-- Folding elements into `Sorted` only appends to the buffer; the downstream
state is untouched. -/
theorem foldAccept_sorted (cmp : α → α → Int) (down : PackedStage α) :
    ∀ (l : List α) (buf : List α) (s : down.σ),
      foldAccept (sortedWrap cmp down).ops (buf, s) l = (buf ++ l, s) := by
  intro l
  induction l with
  | nil => intro buf s; simp [foldAccept]
  | cons x xs ih =>
    intro buf s
    rw [foldAccept_cons]
    show foldAccept (sortedWrap cmp down).ops (buf ++ [x], s) xs = (buf ++ x :: xs, s)
    rw [ih]
    simp

/-- The `Sorted` replay loop into `ToSlice` (which never finishes early)
appends the whole replayed list. -/
theorem replay_toSlice (xs : List α) : ∀ acc : List α,
    replay (toSliceStage α).ops xs acc = acc ++ xs := by
  induction xs with
  | nil => intro acc; simp [replay]
  | cons x xs ih =>
    intro acc
    have hcf : (toSliceStage α).ops.canFinishF acc = false := rfl
    rw [replay, hcf]
    simp only [Bool.false_eq_true, if_false]
    have ha : (toSliceStage α).ops.acceptF x acc = acc ++ [x] := rfl
    rw [ha, ih]
    simp

/-- Folding elements into `Reduce` after the seed is set folds left-to-right
and invokes the combiner once per element. -/
theorem foldAccept_reduceStage (accumulator : α → α → α) :
    ∀ (xs : List α) (a : α) (n : Nat),
      foldAccept (reduceStage accumulator).ops (some a, true, n) xs
        = (some (xs.foldl accumulator a), true, n + xs.length) := by
  intro xs
  induction xs with
  | nil => intro a n; simp [foldAccept]
  | cons x xs ih =>
    intro a n
    rw [foldAccept_cons]
    show foldAccept (reduceStage accumulator).ops (some (accumulator a x), true, n + 1) xs
        = (some ((x :: xs).foldl accumulator a), true, n + (x :: xs).length)
    rw [ih]
    rw [List.foldl_cons, List.length_cons]
    have hn : n + 1 + xs.length = n + (xs.length + 1) := by omega
    rw [hn]

/-- Terminal evaluation over a slice source with a stage whose `Accept` is the
identity on states and which cannot finish at the begun state: the source is
drained but the state passes through `Begin` and `End` only. -/
theorem runTerminal_sliceOps_inert [Inhabited γ] {σ : Type} (elements : List γ) (sg : stage γ σ)
    (hacc : ∀ t s, sg.acceptF t s = s) (s0 : σ)
    (hcf : sg.canFinishF (sg.beginF (elements.length : Int) s0) = false)
    (fuel : Nat) (h : elements.length < fuel) :
    runTerminal (sliceOps elements) sg fuel s0 0 =
      (sg.endF (sg.beginF (elements.length : Int) s0), elements.length,
        Ev.beginE (elements.length : Int) :: pullEvents elements ++ [Ev.endE], true) := by
  simp only [runTerminal]
  rw [show (sliceOps (γ := γ) elements).GetSizeIfKnown 0 = (elements.length : Int) from rfl]
  rw [runStage_sliceOps_inert elements sg hacc _ hcf fuel 0 (by omega) (by omega)]
  rfl


/-- Folding elements into the bare `ToSlice` terminal stage appends them. -/
theorem foldAccept_toSlice (l : List α) : ∀ acc : List α,
    foldAccept (toSliceStage α).ops acc l = acc ++ l := by
  induction l with
  | nil => intro acc; simp [foldAccept]
  | cons x xs ih =>
    intro acc
    rw [foldAccept_cons]
    show foldAccept (toSliceStage α).ops (acc ++ [x]) xs = acc ++ x :: xs
    rw [ih]
    simp

/-- C1: for every pipeline (arbitrary composed stage over arbitrary iterator)
and every terminal operation, a completed terminal evaluation first emits
`Begin` with the source's size hint, then a loop-shaped trace in which
`HasNext` and then `CanFinish` are checked before every `Next`/`Accept` pair
and the loop stops on source exhaustion or on `CanFinish`, and finally emits
`End` exactly once (and `Begin` exactly once). -/
theorem C1_terminal_protocol {ι σ γ : Type} (ops : IterOps ι γ) (sg : stage γ σ)
    (fuel : Nat) (s0 : σ) (i : ι)
    (hok : (runTerminal ops sg fuel s0 i).2.2.2 = true) :
    ∃ tr, (runTerminal ops sg fuel s0 i).2.2.1
          = Ev.beginE (ops.GetSizeIfKnown i) :: tr ++ [Ev.endE]
      ∧ LoopShape ops sg (sg.beginF (ops.GetSizeIfKnown i) s0) i tr
      ∧ (runTerminal ops sg fuel s0 i).2.2.1.countP (fun e => Ev.isEnd e) = 1
      ∧ (runTerminal ops sg fuel s0 i).2.2.1.countP (fun e => Ev.isBegin e) = 1 := by
  have hok' : (runStage ops sg fuel (sg.beginF (ops.GetSizeIfKnown i) s0) i).2.2.2 = true := hok
  have hsh := runStage_loopShape ops sg fuel _ i hok'
  have hc := LoopShape_counts hsh
  have htr : (runTerminal ops sg fuel s0 i).2.2.1
      = Ev.beginE (ops.GetSizeIfKnown i)
          :: (runStage ops sg fuel (sg.beginF (ops.GetSizeIfKnown i) s0) i).2.2.1 ++ [Ev.endE] := rfl
  refine ⟨(runStage ops sg fuel (sg.beginF (ops.GetSizeIfKnown i) s0) i).2.2.1, htr, hsh, ?_, ?_⟩
  · rw [htr]
    simpa [List.countP_cons, List.countP_append, Ev.isEnd, Ev.isBegin] using hc.1
  · rw [htr]
    simpa [List.countP_cons, List.countP_append, Ev.isEnd, Ev.isBegin] using hc.2

/-- Witness for C1 at a concrete run: slice source `[1]` driven into the
`ForEach` terminal stage with fuel 2. -/
theorem C1_terminal_protocol_witness :
    ∃ tr, (runTerminal (sliceOps ([1] : List Int)) (forEachStage Int).ops 2 [] 0).2.2.1
          = Ev.beginE ((sliceOps ([1] : List Int)).GetSizeIfKnown 0) :: tr ++ [Ev.endE]
      ∧ LoopShape (sliceOps ([1] : List Int)) (forEachStage Int).ops
          ((forEachStage Int).ops.beginF ((sliceOps ([1] : List Int)).GetSizeIfKnown 0) []) 0 tr
      ∧ (runTerminal (sliceOps ([1] : List Int)) (forEachStage Int).ops 2 [] 0).2.2.1.countP
          (fun e => Ev.isEnd e) = 1
      ∧ (runTerminal (sliceOps ([1] : List Int)) (forEachStage Int).ops 2 [] 0).2.2.1.countP
          (fun e => Ev.isBegin e) = 1 :=
  C1_terminal_protocol (sliceOps ([1] : List Int)) (forEachStage Int).ops 2 [] 0 (by rfl)

/-- C2: for every k, evaluating `Limit k` then `ToSlice` over the infinite
seed source terminates (fuel k+1 suffices), returns exactly the first k
iterates `[seed, f seed, f (f seed), ...]` (length k), and the underlying
source's `Next` is pulled exactly k times, never a (k+1)-th time. -/
theorem C2_limit_over_seed (γ : Type) (seed : γ) (f : γ → γ) (k : Nat) (hk : 1 ≤ k) :
    (((newHead (withSeed seed f)).Limit (k : Int)).terminal (toSliceStage γ) (k + 1)).2.2.2 = true
  ∧ (((newHead (withSeed seed f)).Limit (k : Int)).terminal (toSliceStage γ) (k + 1)).1.2
      = List.iterate f seed k
  ∧ (((newHead (withSeed seed f)).Limit (k : Int)).terminal (toSliceStage γ) (k + 1)).1.2.length = k
  ∧ (((newHead (withSeed seed f)).Limit (k : Int)).terminal (toSliceStage γ) (k + 1)).2.2.1.countP
      (fun e => Ev.isNext e) = k := by
  have h' := runStage_seed_limit f k k 0 [] (seed, true) (by omega)
  have hval : (((newHead (withSeed seed f)).Limit (k : Int)).terminal (toSliceStage γ) (k + 1)).1.2
      = List.iterate f seed k :=
    (congrArg Prod.snd h'.1).trans (by rw [List.nil_append, seedPulls_true])
  refine ⟨h'.2.2, hval, ?_, ?_⟩
  · rw [hval, List.length_iterate]
  · have htr : (((newHead (withSeed seed f)).Limit (k : Int)).terminal (toSliceStage γ) (k + 1)).2.2.1
        = Ev.beginE unkonwnSize
            :: (runStage (seedOps f) (limitWrap (k : Int) (toSliceStage γ)).ops (k + 1)
                ((0 : Int), ([] : List γ)) (seed, true)).2.2.1 ++ [Ev.endE] := rfl
    rw [htr]
    simpa [List.countP_cons, List.countP_append, Ev.isNext, Ev.isEnd] using h'.2.1

/-- Witness for C2 at the concrete instance: `Limit 3` over seed 0 with
operator +1 yields `[0, 1, 2]` and pulls the source exactly 3 times. -/
theorem C2_limit_over_seed_witness :
    (((newHead (withSeed (0 : Int) (fun x => x + 1))).Limit ((3 : Nat) : Int)).terminal
        (toSliceStage Int) (3 + 1)).1.2 = [0, 1, 2]
  ∧ (((newHead (withSeed (0 : Int) (fun x => x + 1))).Limit ((3 : Nat) : Int)).terminal
        (toSliceStage Int) (3 + 1)).2.2.1.countP (fun e => Ev.isNext e) = 3 := by
  have h := C2_limit_over_seed Int (0 : Int) (fun x => x + 1) 3 (by decide)
  exact ⟨h.2.1.trans (by rfl), h.2.2.2⟩

/-- C3: for every finite source and three-way comparator, `Sorted` buffers
during `Accept` (forwarding nothing), and on `End` sorts the buffer,
re-issues `Begin` downstream with the buffered count, replays the sorted
buffer checking downstream `CanFinish` before each forward, and calls the
downstream `End`; through `ToSlice` the result is the comparator-sorted
permutation of the input. -/
theorem C3_sorted_stage (α : Type) [Inhabited α] (comparator : α → α → Int) (l : List α)
    (htot : ∀ a b, comparator a b ≤ 0 ∨ comparator b a ≤ 0)
    (htrans : ∀ a b c, comparator a b ≤ 0 → comparator b c ≤ 0 → comparator a c ≤ 0) :
    (((newHead (it l)).Sorted comparator).terminal (toSliceStage α) (l.length + 1)).1
        = ([], sortSort comparator l)
  ∧ (sortSort comparator l).Perm l
  ∧ List.Sorted (fun a b => comparator a b ≤ 0) (sortSort comparator l)
  ∧ (∀ (down : PackedStage α) (t : α) (st : List α × down.σ),
      (sortedWrap comparator down).ops.acceptF t st = (st.1 ++ [t], st.2))
  ∧ (∀ (down : PackedStage α) (st : List α × down.σ),
      (sortedWrap comparator down).ops.endF st
        = ([], down.ops.endF (replay down.ops (sortSort comparator st.1)
            (down.ops.beginF ((sortSort comparator st.1).length : Int) st.2))))
  ∧ (∀ (σ : Type) (sg : stage α σ) (x : α) (xs : List α) (s : σ),
      replay sg (x :: xs) s = if sg.canFinishF s then s else replay sg xs (sg.acceptF x s)) := by
  refine ⟨?_, List.perm_insertionSort _ l, ?_, fun down t st => rfl, fun down st => rfl,
    fun σ sg x xs s => rfl⟩
  · have h := runTerminal_sliceOps l (sortedWrap comparator (toSliceStage α)).ops
      (fun s => rfl) (l.length + 1) (([] : List α), ([] : List α)) (by omega)
    have hfinal : (sortedWrap comparator (toSliceStage α)).ops.endF
        (foldAccept (sortedWrap comparator (toSliceStage α)).ops
          ((sortedWrap comparator (toSliceStage α)).ops.beginF (l.length : Int)
            (([] : List α), ([] : List α))) l)
        = ([], sortSort comparator l) := by
      rw [show (sortedWrap comparator (toSliceStage α)).ops.beginF (l.length : Int)
          (([] : List α), ([] : List α)) = (([] : List α), ([] : List α)) from rfl]
      rw [foldAccept_sorted]
      rw [List.nil_append]
      show ([], (toSliceStage α).ops.endF (replay (toSliceStage α).ops (sortSort comparator l)
          ((toSliceStage α).ops.beginF ((sortSort comparator l).length : Int) []))) = _
      rw [show (toSliceStage α).ops.beginF ((sortSort comparator l).length : Int) ([] : List α)
          = ([] : List α) from rfl]
      rw [replay_toSlice]
      rw [List.nil_append]
      rfl
    exact (congrArg Prod.fst h).trans hfinal
  · haveI h1 : IsTotal α (fun a b => comparator a b ≤ 0) := ⟨htot⟩
    haveI h2 : IsTrans α (fun a b => comparator a b ≤ 0) := ⟨htrans⟩
    exact List.sorted_insertionSort _ l

/-- Witness for C3 at the concrete instance: `Sorted` with the ascending int
comparator over `[3, 1, 2]` followed by `ToSlice` yields `[1, 2, 3]`, a
sorted permutation of the input. -/
theorem C3_sorted_stage_witness :
    (((newHead (it [3, 1, 2])).Sorted IntComparator).terminal (toSliceStage Int) 4).1
        = ([], [1, 2, 3])
  ∧ ([1, 2, 3] : List Int).Perm [3, 1, 2]
  ∧ List.Sorted (fun a b => IntComparator a b ≤ 0) ([1, 2, 3] : List Int) := by
  have htot : ∀ a b : Int, IntComparator a b ≤ 0 ∨ IntComparator b a ≤ 0 := by
    intro a b
    unfold IntComparator
    split_ifs <;> omega
  have htrans : ∀ a b c : Int,
      IntComparator a b ≤ 0 → IntComparator b c ≤ 0 → IntComparator a c ≤ 0 := by
    intro a b c h1 h2
    unfold IntComparator at h1 h2 ⊢
    split_ifs at h1 h2 ⊢ <;> omega
  have h := C3_sorted_stage Int IntComparator [3, 1, 2] htot htrans
  have hs : sortSort IntComparator [3, 1, 2] = ([1, 2, 3] : List Int) := by rfl
  refine ⟨h.1.trans (by rw [hs]), ?_, ?_⟩
  · have hp := h.2.1
    rw [hs] at hp
    exact hp
  · have hp := h.2.2.1
    rw [hs] at hp
    exact hp


/-- C4: `Distinct` forwards an element exactly when its hash code has not
been seen earlier, in first-occurrence order; elements colliding on hash are
dropped with no secondary equality check (witnessed by the constant-hash
instance); the seen set is created fresh on `Begin` and released on `End`. -/
theorem C4_distinct_by_hash (α : Type) [Inhabited α] (distincter : α → Int) (l : List α) :
    (((newHead (it l)).Distinct distincter).terminal (toSliceStage α) (l.length + 1)).1
        = ([], dedupByHash distincter l [])
  ∧ (∀ (down : PackedStage α) (size : Int) (st : List Int × down.σ),
      (distinctWrap distincter down).ops.beginF size st = ([], down.ops.beginF unkonwnSize st.2))
  ∧ (∀ (down : PackedStage α) (st : List Int × down.σ),
      (distinctWrap distincter down).ops.endF st = ([], down.ops.endF st.2))
  ∧ (((newHead (it [1, 2, 2, 3, 1])).Distinct (fun x => x)).terminal (toSliceStage Int) 6).1
      = ([], [1, 2, 3])
  ∧ (((newHead (it [1, 2])).Distinct (fun _ => (0 : Int))).terminal (toSliceStage Int) 3).1
      = ([], [1]) := by
  refine ⟨?_, fun down size st => rfl, fun down st => rfl, by rfl, by rfl⟩
  have h := runTerminal_sliceOps l (distinctWrap distincter (toSliceStage α)).ops
    (fun s => rfl) (l.length + 1) (([] : List Int), ([] : List α)) (by omega)
  have hfinal : (distinctWrap distincter (toSliceStage α)).ops.endF
      (foldAccept (distinctWrap distincter (toSliceStage α)).ops
        ((distinctWrap distincter (toSliceStage α)).ops.beginF (l.length : Int)
          (([] : List Int), ([] : List α))) l)
      = ([], dedupByHash distincter l []) := by
    rw [show (distinctWrap distincter (toSliceStage α)).ops.beginF (l.length : Int)
        (([] : List Int), ([] : List α)) = (([] : List Int), ([] : List α)) from rfl]
    show (([] : List Int), (foldAccept (distinctWrap distincter (toSliceStage α)).ops
        (([] : List Int), ([] : List α)) l).2) = (([] : List Int), dedupByHash distincter l [])
    rw [foldAccept_distinct]
    rw [List.nil_append]
  exact (congrArg Prod.fst h).trans hfinal

/-- C5: `Reduce` returns an absent optional over zero elements with the
combiner never invoked; over `x :: xs` it returns the left fold seeded by the
first element, invoking the combiner exactly `xs.length` times; over `[5]` it
returns `some 5` with zero combiner invocations (for every combiner). -/
theorem C5_reduce_fold :
    (∀ (α : Type) (inst : Inhabited α) (accumulator : α → α → α),
        ((newHead (it ([] : List α))).terminal (reduceStage accumulator) 1).1
          = (none, false, 0))
  ∧ (∀ (α : Type) (inst : Inhabited α) (accumulator : α → α → α) (x : α) (xs : List α),
        ((newHead (it (x :: xs))).terminal (reduceStage accumulator) (xs.length + 2)).1
          = (some (xs.foldl accumulator x), true, xs.length))
  ∧ (∀ accumulator : Int → Int → Int,
        ((newHead (it [5])).terminal (reduceStage accumulator) 2).1 = (some 5, true, 0)) := by
  refine ⟨fun α inst accumulator => by rfl, ?_, fun accumulator => by rfl⟩
  intro α inst accumulator x xs
  have h := runTerminal_sliceOps (x :: xs) (reduceStage accumulator).ops (fun s => rfl)
    (xs.length + 2) ((none : Option α), false, (0 : Nat))
    (by simp only [List.length_cons]; omega)
  have hfinal : (reduceStage accumulator).ops.endF
      (foldAccept (reduceStage accumulator).ops
        ((reduceStage accumulator).ops.beginF ((x :: xs).length : Int)
          ((none : Option α), false, (0 : Nat))) (x :: xs))
      = (some (xs.foldl accumulator x), true, xs.length) := by
    rw [show (reduceStage accumulator).ops.beginF ((x :: xs).length : Int)
        ((none : Option α), false, (0 : Nat)) = ((none : Option α), false, (0 : Nat)) from rfl]
    rw [foldAccept_cons]
    rw [show (reduceStage accumulator).ops.acceptF x ((none : Option α), false, (0 : Nat))
        = (some x, true, (0 : Nat)) from rfl]
    rw [foldAccept_reduceStage]
    rw [Nat.zero_add]
    rfl
  exact (congrArg Prod.fst h).trans hfinal

/-- C6: `Filter p` then `Map f` then `ToSlice` returns `f` applied to exactly
the elements satisfying `p`, in source order; in particular the even elements
of `[1..6]` doubled are `[4, 8, 12]`. -/
theorem C6_filter_map_order (α β : Type) [Inhabited α] (p : α → Bool) (f : α → β) (l : List α) :
    ((((newHead (it l)).Filter p).Map f).terminal (toSliceStage β) (l.length + 1)).1
        = (l.filter p).map f
  ∧ ((((newHead (it [1, 2, 3, 4, 5, 6])).Filter (fun x => x % 2 == 0)).Map
        (fun x => x * 2)).terminal (toSliceStage Int) 7).1 = ([4, 8, 12] : List Int) := by
  refine ⟨?_, by rfl⟩
  have h := runTerminal_sliceOps l (filterWrap p (mapWrap f (toSliceStage β))).ops (fun s => rfl)
    (l.length + 1) ([] : List β) (by omega)
  have hfinal : (filterWrap p (mapWrap f (toSliceStage β))).ops.endF
      (foldAccept (filterWrap p (mapWrap f (toSliceStage β))).ops
        ((filterWrap p (mapWrap f (toSliceStage β))).ops.beginF (l.length : Int) ([] : List β)) l)
      = (l.filter p).map f := by
    rw [show (filterWrap p (mapWrap f (toSliceStage β))).ops.beginF (l.length : Int) ([] : List β)
        = ([] : List β) from rfl]
    rw [foldAccept_filter_map]
    rw [List.nil_append]
    rfl
  exact (congrArg Prod.fst h).trans hfinal

/-- C7: constructing any chain of non-terminal operations touches the shared
source not at all: each of the eight operations returns a new pipeline node
whose `source` is the previous node's source unchanged (same iterator state,
so zero `Next` pulls and zero probes) and whose composed wrap is the previous
wrap precomposed with the operation's own wrap closure; only `Str.terminal`
drives the source. -/
theorem C7_lazy_construction (γ α β : Type) (s : Str γ α) (test : α → Bool) (apply : α → β)
    (flatten : α → List β) (consumer : α → Unit) (distincter : α → Int)
    (comparator : α → α → Int) (maxSize n : Int) :
    (s.Filter test).source = s.source
  ∧ (s.Map apply).source = s.source
  ∧ (s.FlatMap flatten).source = s.source
  ∧ (s.Peek consumer).source = s.source
  ∧ (s.Distinct distincter).source = s.source
  ∧ (s.Sorted comparator).source = s.source
  ∧ (s.Limit maxSize).source = s.source
  ∧ (s.Skip n).source = s.source
  ∧ (s.Filter test).wrapStage = (fun ts => s.wrapStage (filterWrap test ts))
  ∧ (s.Map apply).wrapStage = (fun ts => s.wrapStage (mapWrap apply ts)) :=
  ⟨rfl, rfl, rfl, rfl, rfl, rfl, rfl, rfl, rfl, rfl⟩

/-- C8 counterexample: at `next = -2^63`, `to = 1`, `step = 1` the cursor is
mathematically below the exclusive bound, yet `HasNext` returns `false`,
because `epInt.CompareTo` computes `int(m - other)` which wraps around. -/
theorem C8_range_counterexample :
    rangeHasNext ⟨0, 1, 1, -(2 ^ 63)⟩ = false
  ∧ (rangeIt.mk 0 1 1 (-(2 ^ 63))).next < (rangeIt.mk 0 1 1 (-(2 ^ 63))).toVal
  ∧ (rangeIt.mk 0 1 1 (-(2 ^ 63))).step ≥ 0 :=
  ⟨by rfl, by norm_num, by norm_num⟩

/-- C8 (amended): `rangeIt.HasNext` agrees with the mathematical step-aware
comparison of the cursor against the exclusive bound whenever the subtraction
`next - to` does not overflow int64; with overflow the wrapped subtraction
can invert the comparison. -/
theorem C8_range_hasNext_no_overflow (r : rangeIt)
    (h1 : -(2 ^ 63) ≤ r.next - r.toVal) (h2 : r.next - r.toVal < 2 ^ 63) :
    rangeHasNext r = true ↔ (if r.step ≥ 0 then r.next < r.toVal else r.next > r.toVal) := by
  have hwrap : int64wrap (r.next - r.toVal) = r.next - r.toVal := by
    unfold int64wrap
    omega
  unfold rangeHasNext epIntCompareTo
  rw [hwrap]
  split_ifs with hstep
  · simp only [decide_eq_true_eq]
    omega
  · simp only [decide_eq_true_eq]
    omega

/-- Witness for the amended C8 at a concrete non-overflowing range state. -/
theorem C8_range_hasNext_no_overflow_witness :
    rangeHasNext ⟨0, 10, 1, 0⟩ = true
      ↔ (if (rangeIt.mk 0 10 1 0).step ≥ 0
          then (rangeIt.mk 0 10 1 0).next < (rangeIt.mk 0 10 1 0).toVal
          else (rangeIt.mk 0 10 1 0).next > (rangeIt.mk 0 10 1 0).toVal) :=
  C8_range_hasNext_no_overflow ⟨0, 10, 1, 0⟩ (by norm_num) (by norm_num)

/-- C9: after a terminal evaluation exhausts the slice-backed source (final
cursor = slice length), re-running a terminal operation on the same pipeline
(same iterator state) completes without error with zero `Accept` events:
`ToSlice` returns the empty slice, `Count` returns 0, `ForEach` invokes its
consumer zero times — and for any composed stage the re-run driver performs
zero `Accept` calls. -/
theorem C9_rerun_after_exhaustion (α : Type) [Inhabited α] (l : List α) :
    ((newHead (it l)).terminal (toSliceStage α) (l.length + 1)).1 = l
  ∧ ((newHead (it l)).terminal (toSliceStage α) (l.length + 1)).2.1 = l.length
  ∧ ((Str.mk (Iter.mk Nat (sliceOps l) l.length) id : Str α α).terminal (toSliceStage α) 1).1 = []
  ∧ ((Str.mk (Iter.mk Nat (sliceOps l) l.length) id : Str α α).terminal (toSliceStage α) 1).2.2.2
      = true
  ∧ ((Str.mk (Iter.mk Nat (sliceOps l) l.length) id : Str α α).terminal (countStage α) 1).1
      = (0 : Int)
  ∧ ((Str.mk (Iter.mk Nat (sliceOps l) l.length) id : Str α α).terminal (forEachStage α) 1).1 = []
  ∧ ((Str.mk (Iter.mk Nat (sliceOps l) l.length) id : Str α α).terminal
      (toSliceStage α) 1).2.2.1.countP (fun e => Ev.isAccept e) = 0
  ∧ (∀ (σ : Type) (sg : stage α σ) (s0 : σ),
      (runTerminal (sliceOps l) sg 1 s0 l.length).2.2.1.countP (fun e => Ev.isAccept e) = 0
      ∧ (runTerminal (sliceOps l) sg 1 s0 l.length).2.2.2 = true) := by
  have hNN : (sliceOps (γ := α) l).HasNext l.length = false := by simp [sliceOps]
  have h1 := runTerminal_sliceOps l (toSliceStage α).ops (fun s => rfl) (l.length + 1)
    ([] : List α) (by omega)
  have h3 := runTerminal_not_hasNext (sliceOps l) (toSliceStage α).ops 1 ([] : List α)
    l.length hNN (by omega)
  have h5 := runTerminal_not_hasNext (sliceOps l) (countStage α).ops 1 (0 : Int)
    l.length hNN (by omega)
  have h6 := runTerminal_not_hasNext (sliceOps l) (forEachStage α).ops 1 ([] : List α)
    l.length hNN (by omega)
  refine ⟨?_, congrArg (fun x => x.2.1) h1, (congrArg Prod.fst h3).trans (by rfl),
    congrArg (fun x => x.2.2.2) h3, (congrArg Prod.fst h5).trans (by rfl),
    (congrArg Prod.fst h6).trans (by rfl), ?_, ?_⟩
  · have hfinal : (toSliceStage α).ops.endF
        (foldAccept (toSliceStage α).ops
          ((toSliceStage α).ops.beginF (l.length : Int) ([] : List α)) l) = l := by
      rw [show (toSliceStage α).ops.beginF (l.length : Int) ([] : List α) = ([] : List α) from rfl]
      rw [foldAccept_toSlice]
      rw [List.nil_append]
      rfl
    exact (congrArg Prod.fst h1).trans hfinal
  · have ht := congrArg (fun x => x.2.2.1) h3
    refine Eq.trans (congrArg (fun tr => tr.countP (fun e => Ev.isAccept e)) ht) ?_
    simp [List.countP_cons, List.countP_nil, Ev.isAccept]
  · intro σ sg s0
    have h := runTerminal_not_hasNext (sliceOps l) sg 1 s0 l.length hNN (by omega)
    refine ⟨?_, congrArg (fun x => x.2.2.2) h⟩
    have ht := congrArg (fun x => x.2.2.1) h
    refine Eq.trans (congrArg (fun tr => tr.countP (fun e => Ev.isAccept e)) ht) ?_
    simp [List.countP_cons, List.countP_nil, Ev.isAccept]

/-- C10: over a pipeline that delivers zero elements to the terminal stage
(empty source, or any source entirely dropped by a filter), `AllMatch`
returns true, `NoneMatch` returns true, `AnyMatch` returns false, and the
supplied predicate is never invoked (invocation counter stays 0). -/
theorem C10_match_vacuous (α : Type) [Inhabited α] (test : α → Bool) :
    ((newHead (it ([] : List α))).terminal (allMatchStage test) 1).1 = (true, 0)
  ∧ ((newHead (it ([] : List α))).terminal (noneMatchStage test) 1).1 = (true, 0)
  ∧ ((newHead (it ([] : List α))).terminal (anyMatchStage test) 1).1 = (false, 0)
  ∧ (∀ l : List α,
      (((newHead (it l)).Filter (fun _ => false)).terminal (allMatchStage test)
        (l.length + 1)).1 = (true, 0))
  ∧ (∀ l : List α,
      (((newHead (it l)).Filter (fun _ => false)).terminal (noneMatchStage test)
        (l.length + 1)).1 = (true, 0))
  ∧ (∀ l : List α,
      (((newHead (it l)).Filter (fun _ => false)).terminal (anyMatchStage test)
        (l.length + 1)).1 = (false, 0)) := by
  refine ⟨by rfl, by rfl, by rfl, fun l => ?_, fun l => ?_, fun l => ?_⟩
  · exact (congrArg Prod.fst (runTerminal_sliceOps_inert l
      (filterWrap (fun _ => false) (allMatchStage test)).ops (fun t s => rfl) (true, 0) rfl
      (l.length + 1) (by omega))).trans (by rfl)
  · exact (congrArg Prod.fst (runTerminal_sliceOps_inert l
      (filterWrap (fun _ => false) (noneMatchStage test)).ops (fun t s => rfl) (true, 0) rfl
      (l.length + 1) (by omega))).trans (by rfl)
  · exact (congrArg Prod.fst (runTerminal_sliceOps_inert l
      (filterWrap (fun _ => false) (anyMatchStage test)).ops (fun t s => rfl) (false, 0) rfl
      (l.length + 1) (by omega))).trans (by rfl)

end GoStream
